import Mathlib

/-!
Verification of the BlurThatGuy video-analysis and export pipeline
(`backend/main.py`) against its specification.

The Python source is shallowly embedded: floats are modelled as rationals,
Python ints as `Int`/`Nat`, dictionaries as structures, and the streaming
generator as a pure function producing the list of emitted records.
-/

/-- Bounding box `(x, y, w, h)` as stored in the `bbox` list of a detection. -/
structure BBox where
  x : ℚ
  y : ℚ
  w : ℚ
  h : ℚ
  deriving DecidableEq

/-- One entry of a track's `frames` list: `{frameIndex, bbox, score}`.
`find_detection_for_frame` both consumes and produces values of this shape. -/
structure TrackFrame where
  frameIndex : ℤ
  bbox : BBox
  score : ℚ
  deriving DecidableEq

/-- A track as sent in an `ExportRequest`: `{id, frames, startFrame, endFrame}`. -/
structure Track where
  id : ℤ
  frames : List TrackFrame
  startFrame : ℤ
  endFrame : ℤ

/-- The `for f in frames` scan of `find_detection_for_frame` (main.py 728-735):
returns the exact hit if one occurs, else the pair `(prev_f, next_f)` where
`prev_f` is the last element seen with `frameIndex < frame_idx` and `next_f`
the first with `frameIndex > frame_idx` (the loop breaks there). -/
def scanFrames (idx : ℤ) : List TrackFrame → Option TrackFrame →
    TrackFrame ⊕ (Option TrackFrame × Option TrackFrame)
  | [], prev => Sum.inr (prev, none)
  | f :: rest, prev =>
    if f.frameIndex = idx then Sum.inl f
    else if f.frameIndex < idx then scanFrames idx rest (some f)
    else Sum.inr (prev, some f)

/-- Linear interpolation of the four bbox components (main.py 762-767). -/
def interpBBox (p n : BBox) (t : ℚ) : BBox :=
  ⟨p.x + (n.x - p.x) * t, p.y + (n.y - p.y) * t,
   p.w + (n.w - p.w) * t, p.h + (n.h - p.h) * t⟩

/-- The tail of `find_detection_for_frame` after the scan (main.py 737-775):
the one-sided checks with `padding = 0`, the `gap > max_gap` rejection with
`max_gap = 20`, and the linear interpolation. -/
def resolveNeighbors (frame_idx : ℤ) :
    Option TrackFrame → Option TrackFrame → Option TrackFrame
  | some p, none => if |frame_idx - p.frameIndex| ≤ 0 then some p else none
  | none, some nx => if |frame_idx - nx.frameIndex| ≤ 0 then some nx else none
  | some p, some nx =>
    let gap : ℤ := nx.frameIndex - p.frameIndex
    if 20 < gap then
      if frame_idx = p.frameIndex then some p
      else if frame_idx = nx.frameIndex then some nx
      else none
    else
      let t : ℚ := ((frame_idx - p.frameIndex : ℤ) : ℚ) / ((gap : ℤ) : ℚ)
      some ⟨frame_idx, interpBBox p.bbox nx.bbox t,
            p.score * (1 - t) + nx.score * t⟩
  | none, none => none

/-- Embedding of `find_detection_for_frame(frames, frame_idx, sample_rate)`
(main.py 718-775).  The source never divides by zero here: when both `prev_f`
and `next_f` exist, `prev.frameIndex < frame_idx < next.frameIndex`, so the
gap is at least 2. -/
def find_detection_for_frame (frames : List TrackFrame) (frame_idx : ℤ)
    (sample_rate : ℤ) : Option TrackFrame :=
  match frames with
  | [] => none
  | _ :: _ =>
    match scanFrames frame_idx frames none with
    | Sum.inl f => some f
    | Sum.inr (prev?, next?) => resolveNeighbors frame_idx prev? next?

/-- Python `int(q)` on a float: truncation toward zero. -/
def pyInt (q : ℚ) : ℤ := if 0 ≤ q then ⌊q⌋ else ⌈q⌉

/-- The clipped pixelation region computed inside `blur_frame`
(main.py 659-664): `x = max(0, int(ox - ow*padding))`,
`y = max(0, int(oy - oh*padding))`, `w = min(int(ow*(1+padding*2)), width-x)`,
`h = min(int(oh*(1+padding*2)), height-y)`. -/
def clipRegion (width height : ℤ) (padding : ℚ) (b : BBox) : ℤ × ℤ × ℤ × ℤ :=
  let x := max 0 (pyInt (b.x - b.w * padding))
  let y := max 0 (pyInt (b.y - b.h * padding))
  let w := min (pyInt (b.w * (1 + padding * 2))) (width - x)
  let h := min (pyInt (b.h * (1 + padding * 2))) (height - y)
  (x, y, w, h)

/-- A pixel (BGR channels). -/
abbrev Pix : Type := ℚ × ℚ × ℚ

/-- A decoded frame buffer, as a pixel map indexed by (row, column). -/
abbrev Frame : Type := ℤ → ℤ → Pix

/-- `cv2.resize(..., interpolation=cv2.INTER_NEAREST)`: destination pixel
`(i, j)` reads source pixel `(⌊i*srcH/dstH⌋, ⌊j*srcW/dstW⌋)`. -/
def resizeNN (src : Frame) (srcW srcH dstW dstH : ℤ) : Frame :=
  fun i j => src ((i * srcH).fdiv dstH) ((j * srcW).fdiv dstW)

/-- The pixelation applied to one region of a frame (main.py 666-674):
extract `frame[y:y+h, x:x+w]`, downsample with nearest-neighbor to
`(max(1, w // blurAmount), max(1, h // blurAmount))`, upsample back to
`(w, h)`, and write the result over the region. -/
def applyPixelation (blurAmount : ℤ) (x y w h : ℤ) (frame : Frame) : Frame :=
  let region : Frame := fun i j => frame (y + i) (x + j)
  let sw := max 1 (w.fdiv blurAmount)
  let sh := max 1 (h.fdiv blurAmount)
  let small := resizeNN region w h sw sh
  let pixelated := resizeNN small sw sh w h
  fun i j =>
    if y ≤ i ∧ i < y + h ∧ x ≤ j ∧ j < x + w then pixelated (i - y) (j - x)
    else frame i j

/-- `tracks_map = {t.id: t for t in tracks if t.id in selectedTrackIds}`
(main.py 639), as the filtered list of selected tracks. -/
def buildTracksMap (tracks : List Track) (selectedTrackIds : List ℤ) : List Track :=
  tracks.filter (fun t => t.id ∈ selectedTrackIds)

/-- One application of the `for track in tracks_map` body of `blur_frame`
(main.py 654-674) for a single track. -/
def blurOneTrack (padding : ℚ) (blurAmount sampleRate width height idx : ℤ)
    (fr : Frame) (track : Track) : Frame :=
  match find_detection_for_frame track.frames idx sampleRate with
  | none => fr
  | some det =>
    let r := clipRegion width height padding det.bbox
    if 0 < r.2.2.1 ∧ 0 < r.2.2.2 then
      applyPixelation blurAmount r.1 r.2.1 r.2.2.1 r.2.2.2 fr
    else fr

/-- Embedding of `blur_frame` (main.py 652-675): fold the per-track pixelation
over all selected tracks. -/
def blurFrame (tracksMap : List Track) (padding : ℚ)
    (blurAmount sampleRate width height : ℤ) (idx : ℤ) (frame : Frame) : Frame :=
  tracksMap.foldl (blurOneTrack padding blurAmount sampleRate width height idx) frame

/-- Processing of one chunk in `export_video` (main.py 688-691):
`processed = list(pool.map(blur_frame, chunk)); processed.sort(key=...)`.
`ThreadPoolExecutor.map` returns results in input order; the sort then orders
by frame index. -/
def processChunk (process : ℕ → Frame → Frame) (chunk : List (ℕ × Frame)) :
    List (ℕ × Frame) :=
  (chunk.map (fun p => (p.1, process p.1 p.2))).mergeSort
    (fun a b => a.1 ≤ b.1)

/-- The read/chunk/flush loop of `export_video` (main.py 680-699) over the
list of decodable frames, producing the sequence of `(frameIndex, frame)`
pairs written to the output, in write order. -/
def exportGo (process : ℕ → Frame → Frame) (chunkSize : ℕ) :
    ℕ → List (ℕ × Frame) → List Frame → List (ℕ × Frame)
  | _, chunk, [] => if chunk.isEmpty then [] else processChunk process chunk
  | idx, chunk, f :: rest =>
    let chunk' := chunk ++ [(idx, f)]
    if chunkSize ≤ chunk'.length then
      processChunk process chunk' ++ exportGo process chunkSize (idx + 1) [] rest
    else
      exportGo process chunkSize (idx + 1) chunk' rest

/-- The full sequence of frames written by `export_video` for a video whose
decodable frames are `frames`, in write order. -/
def exportFrames (process : ℕ → Frame → Frame) (chunkSize : ℕ)
    (frames : List Frame) : List (ℕ × Frame) :=
  exportGo process chunkSize 0 [] frames

/-- State of the detector pool: the free list `_detector_pool` (main.py 402).
Detectors are identified by their position at creation time. -/
structure PoolState where
  free : List ℕ

/-- `_DetectorLease.__enter__` (main.py 449-453): acquire the semaphore and
`_detector_pool.pop()` the last free detector.  In the sequential model a
call on an empty pool would block forever, which we represent as `none`. -/
def leaseDetector (st : PoolState) : Option (ℕ × PoolState) :=
  match st.free.getLast? with
  | none => none
  | some d => some (d, ⟨st.free.dropLast⟩)

/-- `_DetectorLease.__exit__` (main.py 455-458): `_detector_pool.append(det)`
and release the semaphore.  `__exit__` runs on every exit path of the `with`
block, including when `detector.detect` raises. -/
def releaseDetector (d : ℕ) (st : PoolState) : PoolState :=
  ⟨st.free ++ [d]⟩

/-- One `detect_faces`/`_run_detection` call (main.py 461-501) viewed through
the pool: lease a detector, run `detector.detect` (which may raise — the
`raises` flag), and release on either path via the `with` statement.  Returns
`none` when the pool is empty (the caller would block), else whether the
detection succeeded. -/
def runDetectionPool (raises : Bool) (st : PoolState) : Option Bool × PoolState :=
  match leaseDetector st with
  | none => (none, st)
  | some (d, st1) => (some (!raises), releaseDetector d st1)

/-- A finite sequence of completed `detect_faces` calls, each tagged with
whether its `detector.detect` raised. -/
def runDetectCalls (ops : List Bool) (st : PoolState) : PoolState :=
  ops.foldl (fun s b => (runDetectionPool b s).2) st

/-- A single face as carried in analyzer results: `{bbox, score}`. -/
structure Face where
  bbox : List ℚ
  score : ℚ
  deriving DecidableEq

/-- A `FrameDetection` entry of the final `results` list:
`{"frameIndex": idx, "faces": [...]}` (main.py 842-845). -/
structure FrameDet where
  frameIndex : ℕ
  faces : List Face
  deriving DecidableEq

/-- One NDJSON record yielded by the `generate` generator of
`detect_video_id_endpoint` (main.py 789-880). -/
inductive Rec where
  | progress (p : ℚ)
  | results (rs : List FrameDet)
  | error (msg : String)
  deriving DecidableEq

/-- Round half to even, as Python's built-in `round` does. -/
def rndHalfEven (q : ℚ) : ℤ :=
  if q - ⌊q⌋ < 1/2 then ⌊q⌋
  else if 1/2 < q - ⌊q⌋ then ⌊q⌋ + 1
  else if Even ⌊q⌋ then ⌊q⌋ else ⌊q⌋ + 1

/-- Python `round(q, 1)`: round to one decimal digit, half to even. -/
def round1 (q : ℚ) : ℚ := (rndHalfEven (10 * q) : ℚ) / 10

/-- `total_steps = (total_frames + sample_rate - 1) // sample_rate if
total_frames > 0 else 0` (main.py 801).  Python `//` is floor division
(`Int.fdiv`) and raises `ZeroDivisionError` on a zero divisor, which the
enclosing `try` turns into an error record. -/
def totalStepsE (total_frames sample_rate : ℤ) : Except String ℤ :=
  if 0 < total_frames then
    if sample_rate = 0 then Except.error "integer division or modulo by zero"
    else Except.ok ((total_frames + sample_rate - 1).fdiv sample_rate)
  else Except.ok 0

/-- An opened video as the analyzer sees it: `n` decodable frames (a read at
position `i` succeeds iff `i < n`), the container-reported
`CAP_PROP_FRAME_COUNT`, and the per-frame outcome of `detect_faces`
(`none` models a raised detector exception, caught per frame). -/
structure AnalyzeEnv where
  n : ℕ
  total_frames : ℤ
  detect : ℕ → Option (List Face)

/-- Draining one future (main.py 838-852 and 857-871): take the oldest
pending frame index, record its faces if non-empty (a raised detection is
logged and skipped), increment `completed_steps`, and if `total_steps > 0`
emit a progress record — capped with `min(100, ·)` only in the final drain
(`cap = true`). -/
def drainStep (env : AnalyzeEnv) (T : ℤ) (cap : Bool) (idx : ℕ)
    (completed : ℕ) (results : List FrameDet) (acc : List Rec) :
    ℕ × List FrameDet × List Rec :=
  let results' :=
    match env.detect idx with
    | none => results
    | some faces => if faces.isEmpty then results
                    else results ++ [⟨idx, faces⟩]
  let completed' := completed + 1
  let acc' :=
    if 0 < T then
      let p := round1 (((completed' : ℚ) / (T : ℚ)) * 100)
      acc ++ [Rec.progress (if cap then min 100 p else p)]
    else acc
  (completed', results', acc')

/-- The `while len(pending_futures) >= MAX_PENDING_DETECTIONS` drain loop
(main.py 837-852).  When `maxPending = 0` the source would raise on popping
an empty list; every working pool has `maxPending ≥ 2`, and the theorems
assume `1 ≤ maxPending`. -/
def drainWhile (env : AnalyzeEnv) (T : ℤ) (maxPending : ℕ) :
    List ℕ → ℕ → List FrameDet → List Rec →
    List ℕ × ℕ × List FrameDet × List Rec
  | [], completed, results, acc => ([], completed, results, acc)
  | idx :: rest, completed, results, acc =>
    if maxPending ≤ (idx :: rest).length then
      let s := drainStep env T false idx completed results acc
      drainWhile env T maxPending rest s.1 s.2.1 s.2.2
    else (idx :: rest, completed, results, acc)

/-- The final `for idx, fut in pending_futures` drain (main.py 857-871). -/
def drainAll (env : AnalyzeEnv) (T : ℤ) :
    List ℕ → ℕ → List FrameDet → List Rec → ℕ × List FrameDet × List Rec
  | [], completed, results, acc => (completed, results, acc)
  | idx :: rest, completed, results, acc =>
    let s := drainStep env T true idx completed results acc
    drainAll env T rest s.1 s.2.1 s.2.2

/-- The main `while True` read/submit/drain loop of `generate`
(main.py 815-876), with explicit fuel: exhausted fuel models a
non-terminating run, whose emitted prefix carries no terminal record.
On loop exit the remaining futures are drained and the single `results`
record is appended. -/
def analyzeLoop (env : AnalyzeEnv) (sample_rate T : ℤ) (maxPending : ℕ) :
    ℕ → ℤ → ℤ → List ℕ → ℕ → List FrameDet → List Rec → List Rec
  | 0, _, _, _, _, _, acc => acc
  | fuel + 1, target, current, pending, completed, results, acc =>
    if 0 < env.total_frames ∧ env.total_frames ≤ target then
      let d := drainAll env T pending completed results acc
      d.2.2 ++ [Rec.results d.2.1]
    else if 0 ≤ target ∧ target < (env.n : ℤ) then
      let pending' := pending ++ [target.toNat]
      let s := drainWhile env T maxPending pending' completed results acc
      analyzeLoop env sample_rate T maxPending fuel (target + sample_rate)
        (target + 1) s.1 s.2.1 s.2.2.1 s.2.2.2
    else
      let d := drainAll env T pending completed results acc
      d.2.2 ++ [Rec.results d.2.1]

/-- Embedding of the NDJSON stream produced by `generate`
(main.py 789-880) on an opened video: the computation of `total_steps`
followed by the main loop.  A `ZeroDivisionError` in the step computation is
caught by the enclosing `try` and yields a single error record. -/
def generate (env : AnalyzeEnv) (sample_rate : ℤ) (maxPending : ℕ) : List Rec :=
  match totalStepsE env.total_frames sample_rate with
  | Except.error msg => [Rec.error msg]
  | Except.ok T =>
    analyzeLoop env sample_rate T maxPending (env.n + 1) 0 0 [] 0 [] []

/-- The progress values of a record stream, in emission order. -/
def progressValues (recs : List Rec) : List ℚ :=
  recs.filterMap (fun r => match r with
    | Rec.progress p => some p
    | _ => none)

/-- A completed detection call leaves the pool's free list exactly as it was:
the last detector is popped and appended back on both the success and the
exception path. -/
theorem runDetectionPool_free (raises : Bool) (st : PoolState)
    (h : st.free ≠ []) : ((runDetectionPool raises st).2).free = st.free := by
  unfold runDetectionPool leaseDetector releaseDetector
  rw [List.getLast?_eq_getLast st.free h]
  exact List.dropLast_concat_getLast h

/-- C10: The result of `find_detection_for_frame` is independent of its
`sample_rate` argument: the parameter is accepted but never read, so any two
sample rates produce identical results. -/
theorem find_detection_sample_rate_irrelevant (frames : List TrackFrame)
    (frame_idx r1 r2 : ℤ) :
    find_detection_for_frame frames frame_idx r1 =
      find_detection_for_frame frames frame_idx r2 := rfl

/-- C7: For every frame of dimensions `width × height`, every bounding box,
every padding in `[0, 2]` and blur amount in `[1, 50]`, the clipped pixelation
region `(x, y, w, h)` computed by `blur_frame` satisfies `0 ≤ x`, `0 ≤ y`,
`x + w ≤ width`, `y + h ≤ height` whenever it is applied (`w > 0` and
`h > 0`), so the region read and written never exceeds the frame bounds. -/
theorem clipRegion_in_bounds (width height : ℤ) (padding : ℚ)
    (blurAmount : ℤ) (b : BBox) (hp0 : 0 ≤ padding) (hp2 : padding ≤ 2)
    (hb1 : 1 ≤ blurAmount) (hb50 : blurAmount ≤ 50)
    (hw : 0 < (clipRegion width height padding b).2.2.1)
    (hh : 0 < (clipRegion width height padding b).2.2.2) :
    0 ≤ (clipRegion width height padding b).1 ∧
      0 ≤ (clipRegion width height padding b).2.1 ∧
      (clipRegion width height padding b).1 +
        (clipRegion width height padding b).2.2.1 ≤ width ∧
      (clipRegion width height padding b).2.1 +
        (clipRegion width height padding b).2.2.2 ≤ height := by
  simp only [clipRegion] at *
  omega

/-- Witness for C7 at a concrete input: a 100×100 frame, bbox
`(10, 10, 20, 20)`, padding `0`, blur amount `10`. -/
theorem clipRegion_in_bounds_witness :
    0 ≤ (clipRegion 100 100 0 ⟨10, 10, 20, 20⟩).1 ∧
      0 ≤ (clipRegion 100 100 0 ⟨10, 10, 20, 20⟩).2.1 ∧
      (clipRegion 100 100 0 ⟨10, 10, 20, 20⟩).1 +
        (clipRegion 100 100 0 ⟨10, 10, 20, 20⟩).2.2.1 ≤ 100 ∧
      (clipRegion 100 100 0 ⟨10, 10, 20, 20⟩).2.1 +
        (clipRegion 100 100 0 ⟨10, 10, 20, 20⟩).2.2.2 ≤ 100 :=
  clipRegion_in_bounds 100 100 0 10 ⟨10, 10, 20, 20⟩ (by norm_num)
    (by norm_num) (by norm_num) (by norm_num)
    (by norm_num [clipRegion, pyInt]) (by norm_num [clipRegion, pyInt])

/-- C9: Every leased detector is returned to the pool on every exit path of a
detection call, including when `detector.detect` raises: after any finite
sequence of completed `detect_faces` calls, the free list is exactly the
initial one — the same `N` detectors, none created and none lost. -/
theorem detector_pool_conservation (ops : List Bool) (st : PoolState)
    (h : st.free ≠ []) :
    (runDetectCalls ops st).free = st.free ∧
      (runDetectCalls ops st).free.length = st.free.length := by
  suffices hs : (runDetectCalls ops st).free = st.free by
    exact ⟨hs, by rw [hs]⟩
  induction ops generalizing st with
  | nil => rfl
  | cons b ops ih =>
    have hstep := runDetectionPool_free b st h
    have : runDetectCalls (b :: ops) st =
        runDetectCalls ops (runDetectionPool b st).2 := rfl
    rw [this, ih _ (by rw [hstep]; exact h), hstep]

/-- Witness for C9: a pool of two detectors, one successful call followed by
one raising call. -/
theorem detector_pool_conservation_witness :
    (runDetectCalls [false, true] ⟨[0, 1]⟩).free = [0, 1] ∧
      (runDetectCalls [false, true] ⟨[0, 1]⟩).free.length = [0, 1].length :=
  detector_pool_conservation [false, true] ⟨[0, 1]⟩ (by decide)

/-- C1: For a track with two frames at indices `a` and `b`, `0 < b - a ≤ 20`,
and `0 < k < b - a`, `find_detection_for_frame` at `a + k` returns the
detection with bbox components `frames[0].bbox + (k/(b-a))·(frames[1].bbox -
frames[0].bbox)` and score `prev.score·(1-t) + next.score·t`, `t = k/(b-a)`. -/
theorem find_detection_interpolates (f0 f1 : TrackFrame) (k sr : ℤ)
    (hpos : 0 < f1.frameIndex - f0.frameIndex)
    (hgap : f1.frameIndex - f0.frameIndex ≤ 20)
    (hk0 : 0 < k) (hkb : k < f1.frameIndex - f0.frameIndex) :
    find_detection_for_frame [f0, f1] (f0.frameIndex + k) sr =
      some ⟨f0.frameIndex + k,
        ⟨f0.bbox.x + (k : ℚ) / ((f1.frameIndex - f0.frameIndex : ℤ) : ℚ) *
            (f1.bbox.x - f0.bbox.x),
         f0.bbox.y + (k : ℚ) / ((f1.frameIndex - f0.frameIndex : ℤ) : ℚ) *
            (f1.bbox.y - f0.bbox.y),
         f0.bbox.w + (k : ℚ) / ((f1.frameIndex - f0.frameIndex : ℤ) : ℚ) *
            (f1.bbox.w - f0.bbox.w),
         f0.bbox.h + (k : ℚ) / ((f1.frameIndex - f0.frameIndex : ℤ) : ℚ) *
            (f1.bbox.h - f0.bbox.h)⟩,
        f0.score * (1 - (k : ℚ) / ((f1.frameIndex - f0.frameIndex : ℤ) : ℚ)) +
          f1.score * ((k : ℚ) / ((f1.frameIndex - f0.frameIndex : ℤ) : ℚ))⟩ := by
  have h1 : ¬ (f0.frameIndex = f0.frameIndex + k) := by omega
  have h2 : f0.frameIndex < f0.frameIndex + k := by omega
  have h3 : ¬ (f1.frameIndex = f0.frameIndex + k) := by omega
  have h4 : ¬ (f1.frameIndex < f0.frameIndex + k) := by omega
  have h5 : ¬ (20 < f1.frameIndex - f0.frameIndex) := by omega
  have hk : f0.frameIndex + k - f0.frameIndex = k := by ring
  simp only [find_detection_for_frame, scanFrames, resolveNeighbors,
    if_neg h1, if_pos h2, if_neg h3, if_neg h4, if_neg h5, interpBBox, hk,
    Option.some.injEq, TrackFrame.mk.injEq, BBox.mk.injEq]
  refine ⟨trivial, ⟨?_, ?_, ?_, ?_⟩, ?_⟩ <;> ring

/-- Witness for C1: frames at indices 0 and 10 with bboxes
`(10,10,20,20)` and `(30,10,20,20)`, queried at frame 5. -/
theorem find_detection_interpolates_witness :
    find_detection_for_frame
        [⟨0, ⟨10, 10, 20, 20⟩, 9/10⟩, ⟨10, ⟨30, 10, 20, 20⟩, 9/10⟩] 5 1 =
      some ⟨5,
        ⟨10 + (5 : ℚ) / ((10 - 0 : ℤ) : ℚ) * (30 - 10),
         10 + (5 : ℚ) / ((10 - 0 : ℤ) : ℚ) * (10 - 10),
         20 + (5 : ℚ) / ((10 - 0 : ℤ) : ℚ) * (20 - 20),
         20 + (5 : ℚ) / ((10 - 0 : ℤ) : ℚ) * (20 - 20)⟩,
        9/10 * (1 - (5 : ℚ) / ((10 - 0 : ℤ) : ℚ)) +
          9/10 * ((5 : ℚ) / ((10 - 0 : ℤ) : ℚ))⟩ :=
  find_detection_interpolates ⟨0, ⟨10, 10, 20, 20⟩, 9/10⟩
    ⟨10, ⟨30, 10, 20, 20⟩, 9/10⟩ 5 1 (by decide) (by decide) (by decide)
    (by decide)

/-- On a chunk whose frame indices are already in ascending order (as produced
by the sequential read loop), the sort after `pool.map` is the identity, so
processing a chunk is exactly mapping the per-frame processor over it. -/
theorem processChunk_eq (process : ℕ → Frame → Frame)
    (chunk : List (ℕ × Frame))
    (h : (chunk.map Prod.fst).Pairwise (· ≤ ·)) :
    processChunk process chunk =
      chunk.map (fun q => (q.1, process q.1 q.2)) := by
  unfold processChunk
  apply List.mergeSort_of_sorted
  rw [List.pairwise_map]
  rw [List.pairwise_map] at h
  exact h.imp (fun hab => by simpa using hab)

/-- The export loop writes exactly the processed frames, tagged with their
source indices, in source order: the state `chunk` always holds consecutive
indices ending just before `idx`. -/
theorem exportGo_eq (process : ℕ → Frame → Frame) (chunkSize : ℕ) :
    ∀ (rest : List Frame) (idx : ℕ) (chunk : List (ℕ × Frame)),
    chunk.map Prod.fst = List.range' (idx - chunk.length) chunk.length →
    chunk.length ≤ idx →
    exportGo process chunkSize idx chunk rest =
      (chunk ++ (List.range' idx rest.length).zip rest).map
        (fun q => (q.1, process q.1 q.2)) := by
  intro rest
  induction rest with
  | nil =>
    intro idx chunk hc _
    simp only [exportGo, List.length_nil, List.range'_zero, List.zip_nil_left,
      List.append_nil]
    cases chunk with
    | nil => simp
    | cons a l =>
      rw [if_neg (by simp)]
      apply processChunk_eq
      rw [hc]
      exact (List.pairwise_lt_range' _ _).imp le_of_lt
  | cons f rest ih =>
    intro idx chunk hc hlen
    have hc' : (chunk ++ [(idx, f)]).map Prod.fst =
        List.range' (idx + 1 - (chunk ++ [(idx, f)]).length)
          (chunk ++ [(idx, f)]).length := by
      rw [List.map_append, hc, List.length_append]
      simp only [List.map_cons, List.map_nil, List.length_cons, List.length_nil]
      have h1 : idx + 1 - (chunk.length + (0 + 1)) = idx - chunk.length := by
        omega
      rw [h1, List.range'_1_concat]
      congr 2
      omega
    have hlen' : (chunk ++ [(idx, f)]).length ≤ idx + 1 := by
      simp only [List.length_append, List.length_cons, List.length_nil]
      omega
    have hzip : (List.range' idx (f :: rest).length).zip (f :: rest) =
        (idx, f) :: (List.range' (idx + 1) rest.length).zip rest := by
      simp [List.range'_succ]
    simp only [exportGo]
    split
    · rw [ih (idx + 1) [] (by simp) (by simp),
        processChunk_eq process _ (by
          rw [hc']
          exact (List.pairwise_lt_range' _ _).imp le_of_lt)]
      simp only [List.length_nil, List.nil_append, hzip]
      rw [← List.map_append]
      congr 1
      simp
    · rw [ih (idx + 1) (chunk ++ [(idx, f)]) hc' hlen', hzip]
      congr 1
      simp

/-- C6: For every input video and every `ExportSpec`, the exporter writes
output frames in strictly ascending source frame-index order with consecutive
indices starting at 0, and the number of written output frames equals the
number of frames decoded from the source, including the partial final
chunk. -/
theorem export_writes_in_order (tracks : List Track) (selected : List ℤ)
    (padding : ℚ) (blurAmount sampleRate width height : ℤ) (chunkSize : ℕ)
    (frames : List Frame) :
    (exportFrames
        (fun i fr => blurFrame (buildTracksMap tracks selected) padding
          blurAmount sampleRate width height (i : ℤ) fr)
        chunkSize frames).map Prod.fst = List.range frames.length ∧
      (exportFrames
        (fun i fr => blurFrame (buildTracksMap tracks selected) padding
          blurAmount sampleRate width height (i : ℤ) fr)
        chunkSize frames).length = frames.length := by
  have h := exportGo_eq
    (fun i fr => blurFrame (buildTracksMap tracks selected) padding
      blurAmount sampleRate width height (i : ℤ) fr)
    chunkSize frames 0 [] (by simp) (by simp)
  unfold exportFrames
  rw [h]
  constructor
  · rw [List.map_map, List.nil_append]
    have : (Prod.fst ∘ fun q : ℕ × Frame =>
        (q.1, blurFrame (buildTracksMap tracks selected) padding blurAmount
          sampleRate width height (q.1 : ℤ) q.2)) = Prod.fst := rfl
    rw [this, List.map_fst_zip, List.range_eq_range']
    rw [List.length_range']
  · simp [List.length_zip]

/-- C8: For every input video and every `ExportSpec` whose `selectedTrackIds`
is empty, the per-frame export processing is the identity on pixel data: the
selected-tracks map is empty, `blur_frame` applies no pixelation region to any
frame, and the output has exactly the input's frames, each buffer unchanged by
the processing step. -/
theorem export_empty_selection_identity (tracks : List Track)
    (selected : List ℤ) (padding : ℚ)
    (blurAmount sampleRate width height : ℤ) (chunkSize : ℕ)
    (frames : List Frame) (hsel : selected = []) :
    buildTracksMap tracks selected = [] ∧
      (∀ (idx : ℤ) (fr : Frame),
        blurFrame (buildTracksMap tracks selected) padding blurAmount
          sampleRate width height idx fr = fr) ∧
      (exportFrames
        (fun i fr => blurFrame (buildTracksMap tracks selected) padding
          blurAmount sampleRate width height (i : ℤ) fr)
        chunkSize frames).length = frames.length ∧
      (exportFrames
        (fun i fr => blurFrame (buildTracksMap tracks selected) padding
          blurAmount sampleRate width height (i : ℤ) fr)
        chunkSize frames).map Prod.snd = frames := by
  subst hsel
  have hmap : buildTracksMap tracks [] = [] := by
    simp [buildTracksMap]
  have hid : ∀ (idx : ℤ) (fr : Frame),
      blurFrame (buildTracksMap tracks []) padding blurAmount sampleRate
        width height idx fr = fr := by
    intro idx fr
    rw [hmap]
    rfl
  have hexp := exportGo_eq
    (fun i fr => blurFrame (buildTracksMap tracks []) padding blurAmount
      sampleRate width height (i : ℤ) fr)
    chunkSize frames 0 [] (by simp) (by simp)
  have hfun : (fun q : ℕ × Frame =>
      (q.1, blurFrame (buildTracksMap tracks []) padding blurAmount
        sampleRate width height (q.1 : ℤ) q.2)) = id := by
    funext q
    rw [hid]
    rfl
  refine ⟨hmap, hid, ?_, ?_⟩
  · unfold exportFrames
    rw [hexp, hfun]
    simp [List.length_zip]
  · unfold exportFrames
    rw [hexp, hfun, List.map_id, List.nil_append, List.map_snd_zip]
    rw [List.length_range']

/-- A constant all-black frame used by concrete witnesses. -/
def zeroFrame : Frame := fun _ _ => (0, 0, 0)

/-- Witness for C8: a one-track spec with no selected tracks over a
three-frame video. -/
theorem export_empty_selection_identity_witness :
    buildTracksMap [⟨7, [⟨0, ⟨1, 2, 3, 4⟩, 1⟩], 0, 0⟩] [] = [] ∧
      (∀ (idx : ℤ) (fr : Frame),
        blurFrame (buildTracksMap [⟨7, [⟨0, ⟨1, 2, 3, 4⟩, 1⟩], 0, 0⟩] [])
          (2/5) 12 1 100 100 idx fr = fr) ∧
      (exportFrames
        (fun i fr => blurFrame
          (buildTracksMap [⟨7, [⟨0, ⟨1, 2, 3, 4⟩, 1⟩], 0, 0⟩] []) (2/5) 12 1
          100 100 (i : ℤ) fr)
        8 (List.replicate 3 zeroFrame)).length =
        (List.replicate 3 zeroFrame).length ∧
      (exportFrames
        (fun i fr => blurFrame
          (buildTracksMap [⟨7, [⟨0, ⟨1, 2, 3, 4⟩, 1⟩], 0, 0⟩] []) (2/5) 12 1
          100 100 (i : ℤ) fr)
        8 (List.replicate 3 zeroFrame)).map Prod.snd =
        List.replicate 3 zeroFrame :=
  export_empty_selection_identity [⟨7, [⟨0, ⟨1, 2, 3, 4⟩, 1⟩], 0, 0⟩] []
    (2/5) 12 1 100 100 8 (List.replicate 3 zeroFrame) rfl

/-- An exact hit returned by the scan is an element of the list with the
queried frame index. -/
theorem scanFrames_inl (idx : ℤ) :
    ∀ (frames : List TrackFrame) (acc : Option TrackFrame) (f : TrackFrame),
    scanFrames idx frames acc = Sum.inl f →
    f ∈ frames ∧ f.frameIndex = idx := by
  intro frames
  induction frames with
  | nil =>
    intro acc f h
    simp [scanFrames] at h
  | cons g rest ih =>
    intro acc f h
    simp only [scanFrames] at h
    split at h
    · rename_i heq
      cases h
      exact ⟨List.mem_cons_self g rest, heq⟩
    · split at h
      · obtain ⟨hm, he⟩ := ih _ f h
        exact ⟨List.mem_cons_of_mem _ hm, he⟩
      · cases h

/-- When the scan ends without an exact hit, `prev_f` is either the incoming
accumulator or a list element strictly before the query, and `next_f` is
either absent or a list element strictly after the query. -/
theorem scanFrames_inr_mem (idx : ℤ) :
    ∀ (frames : List TrackFrame) (acc p? n? : Option TrackFrame),
    scanFrames idx frames acc = Sum.inr (p?, n?) →
    (p? = acc ∨ ∃ p, p? = some p ∧ p ∈ frames ∧ p.frameIndex < idx) ∧
    (n? = none ∨ ∃ nx, n? = some nx ∧ nx ∈ frames ∧ idx < nx.frameIndex) := by
  intro frames
  induction frames with
  | nil =>
    intro acc p? n? h
    simp only [scanFrames, Sum.inr.injEq, Prod.mk.injEq] at h
    exact ⟨Or.inl h.1.symm, Or.inl h.2.symm⟩
  | cons g rest ih =>
    intro acc p? n? h
    simp only [scanFrames] at h
    split at h
    · cases h
    · split at h
      · rename_i hne hlt
        obtain ⟨hp, hn⟩ := ih (some g) p? n? h
        refine ⟨?_, ?_⟩
        · rcases hp with hp | ⟨p, hps, hpm, hplt⟩
          · exact Or.inr ⟨g, hp, List.mem_cons_self g rest, hlt⟩
          · exact Or.inr ⟨p, hps, List.mem_cons_of_mem _ hpm, hplt⟩
        · rcases hn with hn | ⟨nx, hns, hnm, hngt⟩
          · exact Or.inl hn
          · exact Or.inr ⟨nx, hns, List.mem_cons_of_mem _ hnm, hngt⟩
      · rename_i hne hnlt
        obtain ⟨h1, h2⟩ : p? = acc ∧ n? = some g := by
          cases h
          exact ⟨rfl, rfl⟩
        refine ⟨Or.inl h1, Or.inr ⟨g, h2, List.mem_cons_self g rest, ?_⟩⟩
        omega

/-- When every list element lies strictly before the query, the scan ends
with some predecessor (strictly before the query) and no successor. -/
theorem scanFrames_all_lt (idx : ℤ) :
    ∀ (frames : List TrackFrame) (p0 : TrackFrame),
    p0.frameIndex < idx → (∀ f ∈ frames, f.frameIndex < idx) →
    ∃ q, scanFrames idx frames (some p0) = Sum.inr (some q, none) ∧
      q.frameIndex < idx := by
  intro frames
  induction frames with
  | nil =>
    intro p0 h0 _
    exact ⟨p0, rfl, h0⟩
  | cons g rest ih =>
    intro p0 h0 hall
    have hg : g.frameIndex < idx := hall g (List.mem_cons_self g rest)
    have hne : ¬ (g.frameIndex = idx) := by omega
    obtain ⟨q, hq, hqlt⟩ :=
      ih g hg (fun f hf => hall f (List.mem_cons_of_mem _ hf))
    refine ⟨q, ?_, hqlt⟩
    simp only [scanFrames, if_neg hne, if_pos hg]
    exact hq

/-- On a strictly increasing list, a scan ending with both a predecessor and
a successor separates the list: every element is at or before the
predecessor, or at or after the successor. -/
theorem scanFrames_separates (idx : ℤ) :
    ∀ (frames : List TrackFrame),
    List.Pairwise (fun a b => a.frameIndex < b.frameIndex) frames →
    ∀ (acc : Option TrackFrame),
    (∀ a, acc = some a → ∀ f ∈ frames, a.frameIndex < f.frameIndex) →
    ∀ (p nx : TrackFrame),
    scanFrames idx frames acc = Sum.inr (some p, some nx) →
    (∀ g ∈ frames,
        g.frameIndex ≤ p.frameIndex ∨ nx.frameIndex ≤ g.frameIndex) ∧
    (∀ a, acc = some a → a.frameIndex ≤ p.frameIndex) := by
  intro frames
  induction frames with
  | nil =>
    intro _ acc _ p nx h
    simp only [scanFrames, Sum.inr.injEq, Prod.mk.injEq] at h
    exact absurd h.2 (by simp)
  | cons g rest ih =>
    intro hps acc hacc p nx h
    have hgrest : ∀ f ∈ rest, g.frameIndex < f.frameIndex :=
      (List.pairwise_cons.mp hps).1
    simp only [scanFrames] at h
    split at h
    · cases h
    · split at h
      · rename_i hne hlt
        obtain ⟨hsep, haccle⟩ := ih (List.pairwise_cons.mp hps).2 (some g)
          (by
            intro a ha f hf
            cases ha
            exact hgrest f hf) p nx h
        have hgle : g.frameIndex ≤ p.frameIndex :=
          haccle g rfl
        refine ⟨?_, ?_⟩
        · intro e he
          rcases List.mem_cons.mp he with rfl | hmem
          · exact Or.inl hgle
          · exact hsep e hmem
        · intro a ha
          have := hacc a ha g (List.mem_cons_self g rest)
          omega
      · rename_i hne hnlt
        obtain ⟨h1, h2⟩ : (acc = some p) ∧ g = nx := by
          cases h
          exact ⟨rfl, rfl⟩
        subst h2
        refine ⟨?_, ?_⟩
        · intro e he
          rcases List.mem_cons.mp he with rfl | hmem
          · exact Or.inr le_rfl
          · exact Or.inr (le_of_lt (hgrest e hmem))
        · intro a ha
          rw [ha] at h1
          cases h1
          exact le_rfl

/-- Once the scan has produced a `(prev_f, next_f)` pair, the result of
`find_detection_for_frame` is the resolution of that pair. -/
theorem find_eq_resolve (f0 : TrackFrame) (rest : List TrackFrame)
    (idx sr : ℤ) (p? n? : Option TrackFrame)
    (hscan : scanFrames idx (f0 :: rest) none = Sum.inr (p?, n?)) :
    find_detection_for_frame (f0 :: rest) idx sr =
      resolveNeighbors idx p? n? := by
  unfold find_detection_for_frame
  rw [hscan]

/-- On a strictly increasing track whose indices never equal the query, a
non-`None` result forces the query to lie strictly between a surviving
predecessor/successor pair at most 20 frames apart, with no track frame
strictly between them. -/
theorem find_some_surrounding (frames : List TrackFrame) (idx sr : ℤ)
    (hsorted : List.Pairwise (fun a b => a.frameIndex < b.frameIndex) frames)
    (hnex : ∀ f ∈ frames, f.frameIndex ≠ idx)
    (hsome : find_detection_for_frame frames idx sr ≠ none) :
    ∃ p nx, p ∈ frames ∧ nx ∈ frames ∧ p.frameIndex < idx ∧
      idx < nx.frameIndex ∧ nx.frameIndex - p.frameIndex ≤ 20 ∧
      ∀ g ∈ frames,
        g.frameIndex ≤ p.frameIndex ∨ nx.frameIndex ≤ g.frameIndex := by
  cases frames with
  | nil => simp [find_detection_for_frame] at hsome
  | cons f0 rest =>
    cases hscan : scanFrames idx (f0 :: rest) none with
    | inl f =>
      obtain ⟨hm, he⟩ := scanFrames_inl idx _ none f hscan
      exact absurd he (hnex f hm)
    | inr pn =>
      obtain ⟨p?, n?⟩ := pn
      rw [find_eq_resolve f0 rest idx sr p? n? hscan] at hsome
      obtain ⟨hp, hn⟩ := scanFrames_inr_mem idx (f0 :: rest) none p? n? hscan
      cases p? with
      | none =>
        cases n? with
        | none => simp [resolveNeighbors] at hsome
        | some nx =>
          have hnlt : idx < nx.frameIndex := by
            rcases hn with hbad | ⟨nx', hns, _, hgt⟩
            · simp at hbad
            · cases hns
              exact hgt
          simp only [resolveNeighbors,
            if_neg (show ¬ (|idx - nx.frameIndex| ≤ 0) by
              rw [abs_le]
              omega)] at hsome
          exact absurd rfl hsome
      | some p =>
        obtain ⟨hpm, hplt⟩ : p ∈ f0 :: rest ∧ p.frameIndex < idx := by
          rcases hp with hbad | ⟨p', hps, hm, hlt⟩
          · simp at hbad
          · cases hps
            exact ⟨hm, hlt⟩
        cases n? with
        | none =>
          simp only [resolveNeighbors,
            if_neg (show ¬ (|idx - p.frameIndex| ≤ 0) by
              rw [abs_le]
              omega)] at hsome
          exact absurd rfl hsome
        | some nx =>
          obtain ⟨hnm, hngt⟩ : nx ∈ f0 :: rest ∧ idx < nx.frameIndex := by
            rcases hn with hbad | ⟨nx', hns, hm, hgt⟩
            · simp at hbad
            · cases hns
              exact ⟨hm, hgt⟩
          by_cases h20 : 20 < nx.frameIndex - p.frameIndex
          · simp only [resolveNeighbors] at hsome
            rw [if_pos h20, if_neg (by omega), if_neg (by omega)] at hsome
            exact absurd rfl hsome
          · obtain ⟨hsep, _⟩ := scanFrames_separates idx (f0 :: rest) hsorted
              none (by intro a ha; cases ha) p nx hscan
            exact ⟨p, nx, hpm, hnm, hplt, hngt, by omega, hsep⟩

/-- On a strictly increasing list, a pair of members with no member strictly
between them occupies consecutive positions. -/
theorem sorted_pair_consecutive (l : List TrackFrame)
    (hsorted : List.Pairwise (fun a b => a.frameIndex < b.frameIndex) l)
    (p nx : TrackFrame) (hp : p ∈ l) (hn : nx ∈ l)
    (hlt : p.frameIndex < nx.frameIndex)
    (hsep : ∀ g ∈ l,
      g.frameIndex ≤ p.frameIndex ∨ nx.frameIndex ≤ g.frameIndex) :
    ∃ i, ∃ h : i + 1 < l.length,
      (l.get ⟨i, Nat.lt_of_succ_lt h⟩).frameIndex = p.frameIndex ∧
      (l.get ⟨i + 1, h⟩).frameIndex = nx.frameIndex := by
  obtain ⟨j, hj, hje⟩ := List.mem_iff_getElem.mp hp
  obtain ⟨k, hk, hke⟩ := List.mem_iff_getElem.mp hn
  have hmono := List.pairwise_iff_getElem.mp hsorted
  have hjk : j < k := by
    by_contra hc
    rcases Nat.lt_or_ge k j with hkj | hge
    · have := hmono k j hk hj hkj
      rw [hje, hke] at this
      omega
    · have hjke : j = k := by omega
      subst hjke
      rw [hje] at hke
      have := congrArg TrackFrame.frameIndex hke
      omega
  have hk1 : k = j + 1 := by
    by_contra hc
    have hmid : j + 1 < k := by omega
    have h1 := hmono j (j + 1) hj (by omega) (by omega)
    have h2 := hmono (j + 1) k (by omega) hk hmid
    rw [hje] at h1
    rw [hke] at h2
    have hmem := List.getElem_mem (show j + 1 < l.length by omega)
    rcases hsep _ hmem with hle | hge <;> omega
  subst hk1
  refine ⟨j, hk, ?_, ?_⟩
  · rw [List.get_eq_getElem, hje]
  · rw [List.get_eq_getElem, hke]

/-- C2: For every non-empty strictly increasing track and every query frame
index that is not an exact sampled index, `find_detection_for_frame` returns
`None` unless the query lies strictly between two consecutive sampled frames
at most 20 apart; in particular it returns `None` at
`frames[0].frameIndex - 1`, at any index past `frames[-1].frameIndex`, and at
any index strictly inside a gap greater than 20. -/
theorem find_detection_window (frames : List TrackFrame) (sr : ℤ)
    (hne : frames ≠ [])
    (hsorted : List.Pairwise (fun a b => a.frameIndex < b.frameIndex) frames) :
    (∀ idx : ℤ, (∀ f ∈ frames, f.frameIndex ≠ idx) →
      find_detection_for_frame frames idx sr ≠ none →
      ∃ i, ∃ h : i + 1 < frames.length,
        (frames.get ⟨i, Nat.lt_of_succ_lt h⟩).frameIndex < idx ∧
        idx < (frames.get ⟨i + 1, h⟩).frameIndex ∧
        (frames.get ⟨i + 1, h⟩).frameIndex -
          (frames.get ⟨i, Nat.lt_of_succ_lt h⟩).frameIndex ≤ 20) ∧
    find_detection_for_frame frames ((frames.head hne).frameIndex - 1) sr =
      none ∧
    (∀ idx : ℤ, (frames.getLast hne).frameIndex < idx →
      find_detection_for_frame frames idx sr = none) ∧
    (∀ idx : ℤ, ∀ i, ∀ h : i + 1 < frames.length,
      (frames.get ⟨i, Nat.lt_of_succ_lt h⟩).frameIndex < idx →
      idx < (frames.get ⟨i + 1, h⟩).frameIndex →
      20 < (frames.get ⟨i + 1, h⟩).frameIndex -
        (frames.get ⟨i, Nat.lt_of_succ_lt h⟩).frameIndex →
      find_detection_for_frame frames idx sr = none) := by
  have hmono := List.pairwise_iff_getElem.mp hsorted
  refine ⟨?_, ?_, ?_, ?_⟩
  · intro idx hnex hsome
    obtain ⟨p, nx, hpm, hnm, hplt, hngt, hgap, hsep⟩ :=
      find_some_surrounding frames idx sr hsorted hnex hsome
    obtain ⟨i, h, hpe, hnexteq⟩ := sorted_pair_consecutive frames hsorted p nx
      hpm hnm (by omega) hsep
    exact ⟨i, h, by omega, by omega, by omega⟩
  · cases frames with
    | nil => exact absurd rfl hne
    | cons f0 rest =>
      simp only [List.head_cons]
      have hscan : scanFrames (f0.frameIndex - 1) (f0 :: rest) none =
          Sum.inr (none, some f0) := by
        simp only [scanFrames, if_neg (show ¬ (f0.frameIndex =
          f0.frameIndex - 1) by omega), if_neg (show ¬ (f0.frameIndex <
          f0.frameIndex - 1) by omega)]
      rw [find_eq_resolve f0 rest (f0.frameIndex - 1) sr none (some f0) hscan]
      simp only [resolveNeighbors,
        if_neg (show ¬ (|f0.frameIndex - 1 - f0.frameIndex| ≤ 0) by
          rw [abs_le]
          omega)]
  · intro idx hlast
    have hall : ∀ f ∈ frames, f.frameIndex < idx := by
      intro f hf
      obtain ⟨m, hm, hme⟩ := List.mem_iff_getElem.mp hf
      rw [List.getLast_eq_getElem frames hne] at hlast
      rcases Nat.lt_or_ge m (frames.length - 1) with hcase | hcase
      · have := hmono m (frames.length - 1) hm (by omega) hcase
        rw [hme] at this
        omega
      · have hmeq : m = frames.length - 1 := by omega
        subst hmeq
        rw [hme] at hlast
        omega
    cases frames with
    | nil => exact absurd rfl hne
    | cons f0 rest =>
      have hf0 : f0.frameIndex < idx := hall f0 (List.mem_cons_self f0 rest)
      obtain ⟨q, hq, hqlt⟩ := scanFrames_all_lt idx rest f0 hf0
        (fun f hf => hall f (List.mem_cons_of_mem _ hf))
      have hscan : scanFrames idx (f0 :: rest) none =
          Sum.inr (some q, none) := by
        simp only [scanFrames, if_neg (show ¬ (f0.frameIndex = idx) by omega),
          if_pos hf0]
        exact hq
      rw [find_eq_resolve f0 rest idx sr (some q) none hscan]
      simp only [resolveNeighbors,
        if_neg (show ¬ (|idx - q.frameIndex| ≤ 0) by
          rw [abs_le]
          omega)]
  · intro idx i h hlow hhigh hgap
    by_contra hsome
    simp only [List.get_eq_getElem, Fin.val_mk] at hlow hhigh hgap
    have hnex : ∀ f ∈ frames, f.frameIndex ≠ idx := by
      intro f hf
      obtain ⟨m, hm, hme⟩ := List.mem_iff_getElem.mp hf
      rcases Nat.lt_or_ge m (i + 1) with hcase | hcase
      · rcases Nat.lt_or_ge m i with hmi | hmi
        · have := hmono m i hm (by omega) hmi
          rw [hme] at this
          omega
        · have hmeq : m = i := by omega
          subst hmeq
          rw [hme] at hlow
          omega
      · rcases Nat.lt_or_ge (i + 1) m with hmi | hmi
        · have := hmono (i + 1) m (by omega) hm hmi
          rw [hme] at this
          omega
        · have hmeq : m = i + 1 := by omega
          subst hmeq
          rw [hme] at hhigh
          omega
    obtain ⟨p, nx, hpm, hnm, hplt, hngt, hgap2, hsep⟩ :=
      find_some_surrounding frames idx sr hsorted hnex hsome
    obtain ⟨jp, hjp, hjpe⟩ := List.mem_iff_getElem.mp hpm
    obtain ⟨kn, hkn, hkne⟩ := List.mem_iff_getElem.mp hnm
    have hgi := List.getElem_mem (show i < frames.length by omega)
    have hgi1 := List.getElem_mem (show i + 1 < frames.length by omega)
    have hi_le_p : frames[i].frameIndex ≤ p.frameIndex := by
      rcases hsep _ hgi with hle | hge
      · exact hle
      · omega
    have hn_le_i1 : nx.frameIndex ≤ frames[i + 1].frameIndex := by
      rcases hsep _ hgi1 with hle | hge
      · omega
      · exact hge
    have hjpf : frames[jp].frameIndex = p.frameIndex := by rw [hjpe]
    have hknf : frames[kn].frameIndex = nx.frameIndex := by rw [hkne]
    have hjpi : jp = i := by
      rcases Nat.lt_or_ge jp i with h1 | h1
      · have := hmono jp i hjp (by omega) h1
        omega
      · rcases Nat.lt_or_ge jp (i + 1) with h2 | h2
        · omega
        · rcases Nat.lt_or_ge (i + 1) jp with h3 | h3
          · have := hmono (i + 1) jp (by omega) hjp h3
            omega
          · have hje : jp = i + 1 := by omega
            subst hje
            omega
    have hkni : kn = i + 1 := by
      rcases Nat.lt_or_ge kn (i + 1) with h1 | h1
      · rcases Nat.lt_or_ge kn i with h2 | h2
        · have := hmono kn i hkn (by omega) h2
          omega
        · have hke : kn = i := by omega
          subst hke
          omega
      · rcases Nat.lt_or_ge (i + 1) kn with h2 | h2
        · have := hmono (i + 1) kn (by omega) hkn h2
          omega
        · omega
    subst hjpi
    subst hkni
    omega

/-- The two-frame track of the spec's gap scenario: sampled frames at indices
10 and 35 (gap 25 > 20). -/
def gapTrackFrames : List TrackFrame :=
  [⟨10, ⟨0, 0, 1, 1⟩, 1⟩, ⟨35, ⟨0, 0, 1, 1⟩, 1⟩]

/-- Witness for C2: on the gap-25 track, the query at frame 20 (strictly
inside the too-large gap) yields `None`. -/
theorem find_detection_window_witness :
    find_detection_for_frame gapTrackFrames 20 1 = none :=
  (find_detection_window gapTrackFrames 1 (by decide)
      (by decide)).2.2.2 20 0 (by decide) (by decide) (by decide) (by decide)

/-- Half-to-even rounding lands on the floor or the floor plus one. -/
theorem rndHalfEven_bounds (q : ℚ) :
    ⌊q⌋ ≤ rndHalfEven q ∧ rndHalfEven q ≤ ⌊q⌋ + 1 := by
  unfold rndHalfEven
  split_ifs <;> omega

/-- Half-to-even rounding is monotone. -/
theorem rndHalfEven_mono {x y : ℚ} (h : x ≤ y) :
    rndHalfEven x ≤ rndHalfEven y := by
  rcases lt_or_le (⌊x⌋) (⌊y⌋) with hf | hf
  · have hx := rndHalfEven_bounds x
    have hy := rndHalfEven_bounds y
    omega
  · have hfe : ⌊x⌋ = ⌊y⌋ := le_antisymm (Int.floor_mono h) hf
    unfold rndHalfEven
    rw [hfe]
    split_ifs <;> first | omega | linarith

/-- Half-to-even rounding of an integer is that integer. -/
theorem rndHalfEven_intCast (z : ℤ) : rndHalfEven (z : ℚ) = z := by
  unfold rndHalfEven
  rw [Int.floor_intCast, sub_self, if_pos (by norm_num)]

/-- `round(·, 1)` is monotone. -/
theorem round1_mono {x y : ℚ} (h : x ≤ y) : round1 x ≤ round1 y := by
  unfold round1
  have := rndHalfEven_mono (show 10 * x ≤ 10 * y by linarith)
  have hc : ((rndHalfEven (10 * x) : ℤ) : ℚ) ≤ ((rndHalfEven (10 * y) : ℤ) : ℚ) :=
    Int.cast_le.mpr this
  linarith

/-- `round(·, 1)` of a nonnegative value is nonnegative. -/
theorem round1_nonneg {x : ℚ} (h : 0 ≤ x) : 0 ≤ round1 x := by
  have h0 : rndHalfEven 0 ≤ rndHalfEven (10 * x) :=
    rndHalfEven_mono (by linarith)
  have hz : rndHalfEven ((0 : ℤ) : ℚ) = 0 := rndHalfEven_intCast 0
  rw [Int.cast_zero] at hz
  unfold round1
  rw [hz] at h0
  have : (0 : ℚ) ≤ ((rndHalfEven (10 * x) : ℤ) : ℚ) := by
    exact_mod_cast h0
  linarith

/-- `round(·, 1)` of a value at most 100 is at most 100. -/
theorem round1_le_100 {x : ℚ} (h : x ≤ 100) : round1 x ≤ 100 := by
  have h0 : rndHalfEven (10 * x) ≤ rndHalfEven ((1000 : ℤ) : ℚ) :=
    rndHalfEven_mono (by push_cast; linarith)
  rw [rndHalfEven_intCast 1000] at h0
  unfold round1
  have : ((rndHalfEven (10 * x) : ℤ) : ℚ) ≤ 1000 := by
    exact_mod_cast h0
  linarith

/-- `progressValues` distributes over append. -/
theorem progressValues_append (a b : List Rec) :
    progressValues (a ++ b) = progressValues a ++ progressValues b :=
  List.filterMap_append a b _

/-- A singleton progress record contributes its value. -/
theorem progressValues_progress (p : ℚ) :
    progressValues [Rec.progress p] = [p] := rfl

/-- A results record contributes no progress value. -/
theorem progressValues_results (rs : List FrameDet) :
    progressValues [Rec.results rs] = [] := rfl

/-- The progress value emitted for the `c`-th completed step (0-based) of a
stream with `T` total steps, after the `min(100, ·)` cap. -/
def progressAt (T : ℤ) (c : ℕ) : ℚ :=
  min 100 (round1 ((((c + 1 : ℕ) : ℚ) / (T : ℚ)) * 100))

/-- `progressAt` is monotone in the completed count. -/
theorem progressAt_mono (T : ℤ) (hT : 0 < T) {c d : ℕ} (h : c ≤ d) :
    progressAt T c ≤ progressAt T d := by
  unfold progressAt
  have hTq : (0 : ℚ) < (T : ℚ) := by exact_mod_cast hT
  have hcd : ((c + 1 : ℕ) : ℚ) ≤ ((d + 1 : ℕ) : ℚ) := by
    exact_mod_cast Nat.succ_le_succ h
  have harg : (((c + 1 : ℕ) : ℚ) / (T : ℚ)) * 100 ≤
      (((d + 1 : ℕ) : ℚ) / (T : ℚ)) * 100 := by
    have := (div_le_div_iff_of_pos_right hTq).mpr hcd
    linarith
  exact min_le_min le_rfl (round1_mono harg)

/-- `progressAt` lies in `(0, 100]`; we only need `[0, 100]`. -/
theorem progressAt_bounds (T : ℤ) (hT : 0 < T) (c : ℕ) :
    0 ≤ progressAt T c ∧ progressAt T c ≤ 100 := by
  unfold progressAt
  have hTq : (0 : ℚ) < (T : ℚ) := by exact_mod_cast hT
  constructor
  · apply le_min (by norm_num)
    apply round1_nonneg
    positivity
  · exact min_le_left _ _

/-- With `total_steps ≤ 0` a drain step emits nothing. -/
theorem drainStep_nonpos (env : AnalyzeEnv) (T : ℤ) (cap : Bool) (idx : ℕ)
    (completed : ℕ) (results : List FrameDet) (acc : List Rec) (hT : T ≤ 0) :
    (drainStep env T cap idx completed results acc).2.2 = acc := by
  simp only [drainStep, if_neg (show ¬ 0 < T by omega)]

/-- With a positive `total_steps` whose bound is respected, the drain step
appends exactly the capped progress value for the new completed count; the
uncapped main-loop value coincides with the capped one because the completed
count never exceeds `total_steps` there. -/
theorem drainStep_progress (env : AnalyzeEnv) (T : ℤ) (cap : Bool) (idx : ℕ)
    (completed : ℕ) (results : List FrameDet) (acc : List Rec) (hT : 0 < T)
    (hc : cap = true ∨ ((completed : ℤ) + 1 ≤ T)) :
    (drainStep env T cap idx completed results acc).1 = completed + 1 ∧
    progressValues (drainStep env T cap idx completed results acc).2.2 =
      progressValues acc ++ [progressAt T completed] := by
  simp only [drainStep, if_pos hT]
  refine ⟨trivial, ?_⟩
  rw [progressValues_append]
  congr 1
  rcases hc with hc | hc
  · subst hc
    rw [if_pos rfl]
    rfl
  · have hle : round1 ((((completed + 1 : ℕ) : ℚ) / (T : ℚ)) * 100) ≤ 100 := by
      apply round1_le_100
      have hTq : (0 : ℚ) < (T : ℚ) := by exact_mod_cast hT
      have hcq : ((completed + 1 : ℕ) : ℚ) ≤ (T : ℚ) := by
        exact_mod_cast hc
      have hdiv : (((completed + 1 : ℕ) : ℚ) / (T : ℚ)) ≤ 1 :=
        (div_le_one hTq).mpr hcq
      linarith
    cases cap with
    | true =>
      rw [if_pos rfl]
      rfl
    | false =>
      rw [if_neg (by simp)]
      rw [progressValues_progress]
      unfold progressAt
      rw [min_eq_right hle]

/-- The drain step does not change the completed count by more than one. -/
theorem drainStep_completed (env : AnalyzeEnv) (T : ℤ) (cap : Bool) (idx : ℕ)
    (completed : ℕ) (results : List FrameDet) (acc : List Rec) :
    (drainStep env T cap idx completed results acc).1 = completed + 1 := by
  simp only [drainStep]

/-- With `total_steps ≤ 0` the bounded drain loop emits nothing. -/
theorem drainWhile_nonpos (env : AnalyzeEnv) (T : ℤ) (mp : ℕ) (hT : T ≤ 0) :
    ∀ (pending : List ℕ) (completed : ℕ) (results : List FrameDet)
      (acc : List Rec),
    (drainWhile env T mp pending completed results acc).2.2.2 = acc := by
  intro pending
  induction pending with
  | nil => intro completed results acc; rfl
  | cons idx rest ih =>
    intro completed results acc
    unfold drainWhile
    split
    · have hacc := drainStep_nonpos env T false idx completed results acc hT
      have := ih (drainStep env T false idx completed results acc).1
        (drainStep env T false idx completed results acc).2.1
        (drainStep env T false idx completed results acc).2.2
      rw [this, hacc]
    · rfl

/-- With `total_steps ≤ 0` the final drain emits nothing. -/
theorem drainAll_nonpos (env : AnalyzeEnv) (T : ℤ) (hT : T ≤ 0) :
    ∀ (pending : List ℕ) (completed : ℕ) (results : List FrameDet)
      (acc : List Rec),
    (drainAll env T pending completed results acc).2.2 = acc := by
  intro pending
  induction pending with
  | nil => intro completed results acc; rfl
  | cons idx rest ih =>
    intro completed results acc
    unfold drainAll
    have hacc := drainStep_nonpos env T true idx completed results acc hT
    have := ih (drainStep env T true idx completed results acc).1
      (drainStep env T true idx completed results acc).2.1
      (drainStep env T true idx completed results acc).2.2
    rw [this, hacc]

/-- Through the bounded drain loop, the completed-plus-pending count is
preserved and the emitted progress stays the capped sequence, provided the
count respects `total_steps`. -/
theorem drainWhile_progress (env : AnalyzeEnv) (T : ℤ) (mp : ℕ) (hT : 0 < T) :
    ∀ (pending : List ℕ) (completed : ℕ) (results : List FrameDet)
      (acc : List Rec),
    ((completed : ℤ) + pending.length ≤ T) →
    progressValues acc = (List.range completed).map (progressAt T) →
    ((drainWhile env T mp pending completed results acc).2.1 : ℤ) +
        (drainWhile env T mp pending completed results acc).1.length =
      (completed : ℤ) + pending.length ∧
    progressValues (drainWhile env T mp pending completed results acc).2.2.2 =
      (List.range
        (drainWhile env T mp pending completed results acc).2.1).map
        (progressAt T) := by
  intro pending
  induction pending with
  | nil =>
    intro completed results acc hcnt hacc
    constructor
    · simp [drainWhile]
    · simpa [drainWhile] using hacc
  | cons idx rest ih =>
    intro completed results acc hcnt hacc
    by_cases hcond : mp ≤ (idx :: rest).length
    · have hs1 := drainStep_completed env T false idx completed results acc
      have hstep := drainStep_progress env T false idx completed results acc
        hT (Or.inr (by
          simp only [List.length_cons] at hcnt
          omega))
      have hacc' : progressValues
          (drainStep env T false idx completed results acc).2.2 =
          (List.range (completed + 1)).map (progressAt T) := by
        rw [hstep.2, hacc, List.range_succ, List.map_append]
        rfl
      have hrec := ih (drainStep env T false idx completed results acc).1
        (drainStep env T false idx completed results acc).2.1
        (drainStep env T false idx completed results acc).2.2
        (by
          rw [hs1]
          simp only [List.length_cons] at hcnt
          push_cast
          omega)
        (by rw [hs1]; exact hacc')
      simp only [drainWhile, if_pos hcond]
      refine ⟨?_, hrec.2⟩
      rw [hrec.1, hs1]
      simp only [List.length_cons]
      push_cast
      omega
    · simp only [drainWhile, if_neg hcond]
      exact ⟨trivial, hacc⟩

/-- Through the final drain, every pending future is completed and the
emitted progress stays the capped sequence. -/
theorem drainAll_progress (env : AnalyzeEnv) (T : ℤ) (hT : 0 < T) :
    ∀ (pending : List ℕ) (completed : ℕ) (results : List FrameDet)
      (acc : List Rec),
    progressValues acc = (List.range completed).map (progressAt T) →
    (drainAll env T pending completed results acc).1 =
      completed + pending.length ∧
    progressValues (drainAll env T pending completed results acc).2.2 =
      (List.range (completed + pending.length)).map (progressAt T) := by
  intro pending
  induction pending with
  | nil =>
    intro completed results acc hacc
    constructor
    · simp [drainAll]
    · simpa [drainAll] using hacc
  | cons idx rest ih =>
    intro completed results acc hacc
    have hs1 := drainStep_completed env T true idx completed results acc
    have hstep := drainStep_progress env T true idx completed results acc
      hT (Or.inl rfl)
    have hacc' : progressValues
        (drainStep env T true idx completed results acc).2.2 =
        (List.range (completed + 1)).map (progressAt T) := by
      rw [hstep.2, hacc, List.range_succ, List.map_append]
      rfl
    have hrec := ih (drainStep env T true idx completed results acc).1
      (drainStep env T true idx completed results acc).2.1
      (drainStep env T true idx completed results acc).2.2
      (by rw [hs1]; exact hacc')
    unfold drainAll
    refine ⟨?_, ?_⟩
    · rw [hrec.1, hs1]
      simp only [List.length_cons]
      omega
    · rw [hrec.2, hs1]
      have heq : completed + 1 + rest.length =
          completed + (idx :: rest).length := by
        simp only [List.length_cons]
        omega
      rw [heq]

/-- Appending the terminal results record leaves the progress values as they
are. -/
theorem progressValues_concat_results (a : List Rec) (rs : List FrameDet) :
    progressValues (a ++ [Rec.results rs]) = progressValues a := by
  rw [progressValues_append, progressValues_results, List.append_nil]

/-- With `total_steps ≤ 0` the whole loop emits no progress records. -/
theorem analyzeLoop_nonpos (env : AnalyzeEnv) (sr T : ℤ) (mp : ℕ)
    (hT : T ≤ 0) :
    ∀ (fuel : ℕ) (target current : ℤ) (pending : List ℕ) (completed : ℕ)
      (results : List FrameDet) (acc : List Rec),
    progressValues (analyzeLoop env sr T mp fuel target current pending
      completed results acc) = progressValues acc := by
  intro fuel
  induction fuel with
  | zero =>
    intro target current pending completed results acc
    rfl
  | succ fuel ih =>
    intro target current pending completed results acc
    simp only [analyzeLoop]
    split_ifs with h1 h2
    · rw [progressValues_concat_results, drainAll_nonpos env T hT]
    · rw [ih, drainWhile_nonpos env T mp hT]
    · rw [progressValues_concat_results, drainAll_nonpos env T hT]

/-- With a positive `total_steps` and a stride compatible with it, the loop
only ever emits the capped progress sequence for an initial run of completed
counts. -/
theorem analyzeLoop_progress (env : AnalyzeEnv) (sr T : ℤ) (mp : ℕ)
    (hT : 0 < T) (htf : 0 < env.total_frames)
    (hstep : ∀ c : ℤ, 0 ≤ c → c * sr < env.total_frames → c + 1 ≤ T) :
    ∀ (fuel : ℕ) (target current : ℤ) (pending : List ℕ) (completed : ℕ)
      (results : List FrameDet) (acc : List Rec),
    target = ((completed : ℤ) + pending.length) * sr →
    ((completed : ℤ) + pending.length) ≤ T →
    progressValues acc = (List.range completed).map (progressAt T) →
    ∃ m : ℕ, progressValues (analyzeLoop env sr T mp fuel target current
        pending completed results acc) =
      (List.range m).map (progressAt T) := by
  intro fuel
  induction fuel with
  | zero =>
    intro target current pending completed results acc _ _ hacc
    exact ⟨completed, hacc⟩
  | succ fuel ih =>
    intro target current pending completed results acc htarget hcnt hacc
    simp only [analyzeLoop]
    split_ifs with h1 h2
    · refine ⟨completed + pending.length, ?_⟩
      rw [progressValues_concat_results]
      exact (drainAll_progress env T hT pending completed results acc hacc).2
    · have htlt : target < env.total_frames := by
        rcases not_and_or.mp h1 with hc | hc
        · exact absurd htf hc
        · omega
      have hstep1 : ((completed : ℤ) + pending.length) + 1 ≤ T := by
        apply hstep
        · positivity
        · rw [← htarget]
          exact htlt
      have hcnt1 : ((completed : ℤ) +
          (pending ++ [target.toNat]).length) ≤ T := by
        simp only [List.length_append, List.length_cons, List.length_nil]
        push_cast
        omega
      obtain ⟨hwc, hwp⟩ := drainWhile_progress env T mp hT
        (pending ++ [target.toNat]) completed results acc hcnt1 hacc
      have hA : target + sr =
          (((drainWhile env T mp (pending ++ [target.toNat]) completed
            results acc).2.1 : ℤ) +
           (drainWhile env T mp (pending ++ [target.toNat]) completed
            results acc).1.length) * sr := by
        rw [hwc]
        simp only [List.length_append, List.length_cons, List.length_nil]
        push_cast
        rw [htarget]
        ring
      have hB : (((drainWhile env T mp (pending ++ [target.toNat]) completed
            results acc).2.1 : ℤ) +
          (drainWhile env T mp (pending ++ [target.toNat]) completed
            results acc).1.length) ≤ T := by
        rw [hwc]
        exact hcnt1
      exact ih (target + sr) (target + 1) _ _ _ _ hA hB hwp
    · refine ⟨completed + pending.length, ?_⟩
      rw [progressValues_concat_results]
      exact (drainAll_progress env T hT pending completed results acc hacc).2

/-- With stride at least 1 and fuel covering the remaining file, the loop
always terminates by emitting the terminal results record. -/
theorem analyzeLoop_ends (env : AnalyzeEnv) (sr T : ℤ) (mp : ℕ)
    (hsr : 1 ≤ sr) :
    ∀ (fuel : ℕ), 1 ≤ fuel →
    ∀ (target current : ℤ) (pending : List ℕ) (completed : ℕ)
      (results : List FrameDet) (acc : List Rec),
    (env.n : ℤ) ≤ target + ((fuel : ℤ) - 1) * sr →
    ∃ pre rs, analyzeLoop env sr T mp fuel target current pending completed
        results acc = pre ++ [Rec.results rs] := by
  intro fuel
  induction fuel with
  | zero =>
    intro h
    exact absurd h (by norm_num)
  | succ fuel ih =>
    intro _ target current pending completed results acc hfuel
    have hexp : target + ((fuel + 1 : ℕ) : ℤ) * sr - sr =
        target + (((fuel : ℕ) : ℤ) - 1) * sr + sr := by
      push_cast
      ring
    simp only [analyzeLoop]
    split_ifs with h1 h2
    · exact ⟨_, _, rfl⟩
    · have hfge : 1 ≤ fuel := by
        by_contra hc
        have hf0 : fuel = 0 := by omega
        subst hf0
        have hz : ((0 + 1 : ℕ) : ℤ) - 1 = 0 := by norm_num
        rw [hz, zero_mul, add_zero] at hfuel
        omega
      apply ih hfge (target + sr) (target + 1) _ _ _ _
      have hrw : ((fuel + 1 : ℕ) : ℤ) - 1 = ((fuel : ℕ) : ℤ) := by
        push_cast
        ring
      rw [hrw] at hfuel
      have : ((fuel : ℕ) : ℤ) * sr = sr + (((fuel : ℕ) : ℤ) - 1) * sr := by
        ring
      linarith [hfuel, this]
    · exact ⟨_, _, rfl⟩

/-- Integer ceiling division: for a positive divisor,
`⌈a/b⌉ = (a + b − 1) // b`. -/
theorem ceil_div_int (a b : ℤ) (hb : 0 < b) :
    ⌈(a : ℚ) / (b : ℚ)⌉ = (a + b - 1).fdiv b := by
  rw [Int.fdiv_eq_ediv _ (by omega)]
  have hmod := Int.ediv_add_emod (a + b - 1) b
  have hr0 : 0 ≤ (a + b - 1) % b := Int.emod_nonneg _ (by omega)
  have hrb : (a + b - 1) % b < b := Int.emod_lt_of_pos _ hb
  have hbq : (0 : ℚ) < (b : ℚ) := by exact_mod_cast hb
  have hle : (a : ℚ) / (b : ℚ) ≤ (((a + b - 1) / b : ℤ) : ℚ) := by
    rw [div_le_iff₀ hbq]
    have hint : a ≤ ((a + b - 1) / b) * b := by linarith [hmod, hrb]
    exact_mod_cast hint
  have hgt : ((((a + b - 1) / b : ℤ) : ℚ)) - 1 < (a : ℚ) / (b : ℚ) := by
    rw [lt_div_iff₀ hbq]
    have hint : (((a + b - 1) / b) - 1) * b < a := by linarith [hmod, hr0]
    have hcast : (((((a + b - 1) / b) - 1) * b : ℤ) : ℚ) < (a : ℚ) :=
      Int.cast_lt.mpr hint
    push_cast at hcast
    linarith
  apply le_antisymm
  · exact Int.ceil_le.mpr hle
  · have hlt : ((a + b - 1) / b) - 1 < ⌈(a : ℚ) / (b : ℚ)⌉ := by
      apply Int.lt_ceil.mpr
      push_cast
      linarith
    omega

/-- Mapping a monotone function over `range` yields a non-decreasing chain. -/
theorem chain'_map_range_of_mono (f : ℕ → ℚ) (m : ℕ)
    (hf : ∀ a b : ℕ, a ≤ b → f a ≤ f b) :
    List.Chain' (· ≤ ·) ((List.range m).map f) := by
  rw [List.chain'_map]
  cases m with
  | zero => simp
  | succ k =>
    rw [List.chain'_range_succ]
    exact fun i _ => hf i (i + 1) (by omega)

/-- With a positive reported frame count and a nonzero stride, the stream is
the main loop run with the computed step total. -/
theorem generate_eq_loop_pos (env : AnalyzeEnv) (sr : ℤ) (mp : ℕ)
    (htf : 0 < env.total_frames) (hsr : ¬ sr = 0) :
    generate env sr mp =
      analyzeLoop env sr ((env.total_frames + sr - 1).fdiv sr) mp
        (env.n + 1) 0 0 [] 0 [] [] := by
  unfold generate totalStepsE
  rw [if_pos htf, if_neg hsr]

/-- With a non-positive reported frame count the stream is the main loop run
with a step total of zero. -/
theorem generate_eq_loop_nonpos (env : AnalyzeEnv) (sr : ℤ) (mp : ℕ)
    (htf : ¬ 0 < env.total_frames) :
    generate env sr mp =
      analyzeLoop env sr 0 mp (env.n + 1) 0 0 [] 0 [] [] := by
  unfold generate totalStepsE
  rw [if_neg htf]

/-- With a positive reported frame count and stride zero, the step
computation raises `ZeroDivisionError` and the stream is a single error
record. -/
theorem generate_eq_error (env : AnalyzeEnv) (sr : ℤ) (mp : ℕ)
    (htf : 0 < env.total_frames) (hsr : sr = 0) :
    generate env sr mp =
      [Rec.error "integer division or modulo by zero"] := by
  unfold generate totalStepsE
  rw [if_pos htf, if_pos hsr]

/-- C5: Within a single analyzer stream over any video, the emitted progress
values are monotonically non-decreasing and all lie in `[0, 100]`, across
both the bounded-FIFO draining phase of the main loop and the final drain of
remaining futures. -/
theorem analyzer_progress_monotone (env : AnalyzeEnv) (sr : ℤ) (mp : ℕ)
    (hsr : 1 ≤ sr) (hmp : 1 ≤ mp) :
    List.Chain' (· ≤ ·) (progressValues (generate env sr mp)) ∧
      ∀ p ∈ progressValues (generate env sr mp), 0 ≤ p ∧ p ≤ 100 := by
  by_cases htf : 0 < env.total_frames
  · rw [generate_eq_loop_pos env sr mp htf (by omega)]
    set T := (env.total_frames + sr - 1).fdiv sr with hTdef
    have hsrpos : 0 < sr := by omega
    have hT : 0 < T := by
      have h1 := (Int.le_ediv_iff_mul_le hsrpos).mpr
        (show 1 * sr ≤ env.total_frames + sr - 1 by omega)
      rw [hTdef, Int.fdiv_eq_ediv _ (by omega)]
      omega
    have hstep : ∀ c : ℤ, 0 ≤ c → c * sr < env.total_frames → c + 1 ≤ T := by
      intro c hc0 hlt
      rw [hTdef, Int.fdiv_eq_ediv _ (by omega)]
      apply (Int.le_ediv_iff_mul_le hsrpos).mpr
      have h2 : c * sr + 1 ≤ env.total_frames := Int.add_one_le_iff.mpr hlt
      linarith
    obtain ⟨m, hm⟩ := analyzeLoop_progress env sr T mp hT htf hstep
      (env.n + 1) 0 0 [] 0 [] [] (by simp)
      (by
        simp only [List.length_nil, Nat.cast_zero, add_zero]
        omega)
      (by simp [progressValues])
    rw [hm]
    refine ⟨chain'_map_range_of_mono _ m
      (fun a b hab => progressAt_mono T hT hab), ?_⟩
    intro p hp
    obtain ⟨c, hc, rfl⟩ := List.mem_map.mp hp
    exact progressAt_bounds T hT c
  · rw [generate_eq_loop_nonpos env sr mp htf]
    rw [analyzeLoop_nonpos env sr 0 mp le_rfl (env.n + 1) 0 0 [] 0 [] []]
    refine ⟨?_, ?_⟩
    · simp [progressValues]
    · intro p hp
      simp [progressValues] at hp

/-- Witness for C5: a 3-frame video analyzed at stride 1 with a pool of one
detector. -/
theorem analyzer_progress_monotone_witness :
    List.Chain' (· ≤ ·)
      (progressValues (generate ⟨3, 3, fun _ => some []⟩ 1 2)) ∧
      ∀ p ∈ progressValues (generate ⟨3, 3, fun _ => some []⟩ 1 2),
        0 ≤ p ∧ p ≤ 100 :=
  analyzer_progress_monotone ⟨3, 3, fun _ => some []⟩ 1 2 (by decide)
    (by decide)

/-- Counterexample for C4: with an unreported frame count the code sets
`total_steps` to 0, not 1, and a stream over a 3-frame video with reported
count 0 drains three detections yet emits no progress record at all. -/
theorem totalSteps_unreported_counterexample :
    totalStepsE 0 1 = Except.ok 0 ∧ (0 : ℤ) ≠ 1 ∧
      generate ⟨3, 0, fun _ => some []⟩ 1 4 = [Rec.results []] :=
  ⟨rfl, by decide, rfl⟩

/-- C4 as amended: `totalSteps` equals `max(1, ceil(frameCount/sampleStride))`
when the container reports `frameCount > 0`, but equals `0` (not 1) when
`frameCount ≤ 0`; progress records are emitted only when `totalSteps > 0`, so
a video with unreported frame count produces no progress records; and
analyzing a 10-frame video at sample rate 1 emits at least one progress
record before the single terminal results record. -/
theorem totalSteps_amended :
    (∀ tf sr : ℤ, 0 < tf → 1 ≤ sr →
      totalStepsE tf sr = Except.ok ((tf + sr - 1).fdiv sr) ∧
      (tf + sr - 1).fdiv sr = max 1 ⌈(tf : ℚ) / (sr : ℚ)⌉) ∧
    (∀ tf sr : ℤ, tf ≤ 0 → totalStepsE tf sr = Except.ok 0) ∧
    (∀ (env : AnalyzeEnv) (sr : ℤ) (mp : ℕ), env.total_frames ≤ 0 →
      progressValues (generate env sr mp) = []) ∧
    (progressValues (generate ⟨10, 10, fun _ => some []⟩ 1 4) ≠ [] ∧
      (generate ⟨10, 10, fun _ => some []⟩ 1 4).getLast? =
        some (Rec.results [])) := by
  refine ⟨?_, ?_, ?_, by decide, by decide⟩
  · intro tf sr htf hsr
    constructor
    · unfold totalStepsE
      rw [if_pos htf, if_neg (by omega)]
    · rw [ceil_div_int tf sr (by omega)]
      have h1 : 1 ≤ (tf + sr - 1).fdiv sr := by
        rw [Int.fdiv_eq_ediv _ (by omega)]
        apply (Int.le_ediv_iff_mul_le (by omega)).mpr
        omega
      exact (max_eq_right h1).symm
  · intro tf sr htf
    unfold totalStepsE
    rw [if_neg (by omega)]
  · intro env sr mp htf
    rw [generate_eq_loop_nonpos env sr mp (by omega),
      analyzeLoop_nonpos env sr 0 mp le_rfl (env.n + 1) 0 0 [] 0 [] []]
    rfl

/-- Witness for C4's amended claim at concrete inputs: a reported count of 10
at stride 3, and a non-positive reported count. -/
theorem totalSteps_amended_witness :
    totalStepsE 10 3 = Except.ok (((10 : ℤ) + 3 - 1).fdiv 3) ∧
      totalStepsE (-5) 7 = Except.ok 0 :=
  ⟨(totalSteps_amended.1 10 3 (by decide) (by decide)).1,
   totalSteps_amended.2.1 (-5) 7 (by decide)⟩

/-- The frame indices carried by the terminal results record of a stream, if
any. -/
def lastResultsIdx (recs : List Rec) : List ℕ :=
  match recs.getLast? with
  | some (Rec.results rs) => rs.map FrameDet.frameIndex
  | _ => []

/-- Counterexample for C3: the endpoint applies no clamping at all — at
`sampleStride = 0` with a positive reported frame count, the step computation
divides by zero, so the stream is a single error record: the analysis does
not run. -/
theorem sampleStride_unclamped_counterexample :
    generate ⟨10, 10, fun _ => some []⟩ 0 4 =
      [Rec.error "integer division or modulo by zero"] :=
  generate_eq_error ⟨10, 10, fun _ => some []⟩ 0 4 (by decide) rfl

/-- C3 as amended: `sampleStride` is not clamped.  A stride of 0 with a
positive reported frame count makes the step computation raise
`ZeroDivisionError`, terminating the stream with a single error record; any
stride ≥ 1 is used as-is as the effective stride and the analysis runs to a
terminal results record — in particular a stride of 31 samples frames 0 and
31 of a 62-frame video rather than being clamped to 30. -/
theorem sampleStride_unclamped :
    (∀ (n : ℕ) (tf : ℤ) (detect : ℕ → Option (List Face)) (mp : ℕ),
      0 < tf → generate ⟨n, tf, detect⟩ 0 mp =
        [Rec.error "integer division or modulo by zero"]) ∧
    (∀ (env : AnalyzeEnv) (sr : ℤ) (mp : ℕ), 1 ≤ sr →
      ∃ rs, (generate env sr mp).getLast? = some (Rec.results rs)) ∧
    lastResultsIdx
      (generate ⟨62, 62, fun _ => some [⟨[0, 0, 1, 1], 1⟩]⟩ 31 4) =
      [0, 31] := by
  refine ⟨?_, ?_, by decide⟩
  · intro n tf detect mp htf
    exact generate_eq_error ⟨n, tf, detect⟩ 0 mp htf rfl
  · intro env sr mp hsr
    have hfuel1 : 1 ≤ env.n + 1 := by omega
    have hcover : (env.n : ℤ) ≤ 0 + (((env.n + 1 : ℕ) : ℤ) - 1) * sr := by
      have hn0 : (0 : ℤ) ≤ (env.n : ℤ) := by positivity
      have := mul_le_mul_of_nonneg_left hsr hn0
      push_cast
      linarith
    by_cases htf : 0 < env.total_frames
    · obtain ⟨pre, rs, hloop⟩ := analyzeLoop_ends env sr
        ((env.total_frames + sr - 1).fdiv sr) mp hsr (env.n + 1) hfuel1
        0 0 [] 0 [] [] hcover
      refine ⟨rs, ?_⟩
      rw [generate_eq_loop_pos env sr mp htf (by omega), hloop]
      exact List.getLast?_concat _
    · obtain ⟨pre, rs, hloop⟩ := analyzeLoop_ends env sr 0 mp hsr
        (env.n + 1) hfuel1 0 0 [] 0 [] [] hcover
      refine ⟨rs, ?_⟩
      rw [generate_eq_loop_nonpos env sr mp htf, hloop]
      exact List.getLast?_concat _

/-- Witness for C3's amended claim: a 10-frame video with stride 0 errors
out, and a stride-1 analysis of a 3-frame video ends with a results
record. -/
theorem sampleStride_unclamped_witness :
    generate ⟨10, 10, fun _ => some []⟩ 0 4 =
      [Rec.error "integer division or modulo by zero"] ∧
      ∃ rs, (generate ⟨3, 3, fun _ => some []⟩ 1 4).getLast? =
        some (Rec.results rs) :=
  ⟨sampleStride_unclamped.1 10 10 (fun _ => some []) 4 (by decide),
   sampleStride_unclamped.2.1 ⟨3, 3, fun _ => some []⟩ 1 4 (by decide)⟩
